import Mathlib

/-!
Shallow embedding of `tailfs/tailfsimpl/remote_impl.go` (package `tailfsimpl`):
the TailFS remote file-system coordinator.  Pure Lean translations of the
data model (shares, permissions), the request entry point
`ServeHTTPWithPerms`, the per-user server supervisor (`userServer.run`,
`userServer.runLoop`), the child dialer built by `buildChild`, and the
configuration swap in `SetShares`/`Close`.  External collaborators that are
not part of this repository's source (the composite WebDAV handler, the
`shared.CleanAndSplit` helper) are modelled from the specification and say
so in their doc comments; operating–system effects (process launch, pipes,
the privilege probe) are represented by explicit environment records so
that the Go control flow becomes a pure function of that environment.
-/

namespace Tailfsimpl

/-- Go type `tailfs.Share`: a named local directory exposed to remote principals.
`shareAs` is the Go field `As`, the local account (Owner) the share must be
served as. -/
structure Share where
  name : String
  path : String
  shareAs : String
deriving Repr, DecidableEq

/-- Go type `tailfs.Permission`: result of the externally supplied policy lookup
`Permissions.For(shareName)`. -/
inductive Permission where
  | none
  | readOnly
  | readWrite
deriving Repr, DecidableEq

/-- The fixed set of mutating WebDAV verbs, from the `writeMethods` map in
`remote_impl.go`. -/
def writeMethods : List String :=
  ["PUT", "POST", "COPY", "LOCK", "UNLOCK", "MKCOL", "MOVE", "PROPPATCH"]

/-- Split a character list on `/`, dropping empty segments; `cur` holds the
(reversed) characters of the segment being read. -/
def splitSegments : List Char → List Char → List String
  | [], [] => []
  | [], cur => [String.mk cur.reverse]
  | '/' :: rest, [] => splitSegments rest []
  | '/' :: rest, cur => String.mk cur.reverse :: splitSegments rest []
  | c :: rest, cur => splitSegments rest (c :: cur)

/-- Modelled from the spec: `shared.CleanAndSplit` (package
`tailfs/tailfsimpl/shared`, not under `src/`) — "Determine the share name as
the first path segment of the request target."  We clean the URL path by
splitting on `/` and dropping empty segments; the first segment (or `""` for
the root path) is the share name. -/
def cleanAndSplit (path : String) : List String :=
  splitSegments path.data []

/-- The share name targeted by a request: its first path segment, `""` for
the root path (Go: `shared.CleanAndSplit(r.URL.Path)[0]`). -/
def firstSegment (path : String) : String :=
  (cleanAndSplit path).headD ""

/-- Outcome of handling one HTTP request in the model: the error responses
written by `ServeHTTPWithPerms` itself, plus what the composed WebDAV
handler does after dispatch (forward to one share's backend, or list the
visible shares at the root). -/
inductive DavResponse where
  | notFound
  | forbidden
  | forwarded (share : String)
  | rootListing (visible : List String)
deriving Repr, DecidableEq

/-- Modelled from the spec: the composite WebDAV handler
(`compositedav.Handler`, not under `src/`).  "Dispatch to the composed
handler, which fans a request for a given share's subtree out to that
share's Backend Dialer/transport"; "requests for the root path produce an
aggregate listing of the visible shares only"; a request whose first
segment names no visible child is answered "not found" (indistinguishable
from an absent share). -/
def compositedavHandle (visible : List String) (path : String) : DavResponse :=
  let seg := firstSegment path
  if seg = "" then
    .rootListing visible
  else if seg ∈ visible then
    .forwarded seg
  else
    .notFound

/-- Method `FileSystemForRemote.ServeHTTPWithPerms`, as a function of the supplied
permission policy, the request method and URL path, and the names in the
current `children` map.  Mutating methods are pre-checked against the
policy for the first path segment (`None` → 404, `ReadOnly` → 403);
otherwise the children are filtered down to those the policy does not deny
and the request is dispatched to the composed handler. -/
def serveHTTPWithPerms (permissions : String → Permission) (method : String)
    (path : String) (children : List String) : DavResponse :=
  let isWrite := method ∈ writeMethods
  let dispatch :=
    compositedavHandle
      (children.filter (fun name => permissions name ≠ Permission.none)) path
  if isWrite then
    match permissions (firstSegment path) with
    | Permission.none => .notFound
    | Permission.readOnly => .forbidden
    | Permission.readWrite => dispatch
  else
    dispatch

/-! ## The per-user server supervisor (`userServer`) -/

/-- Go type `os/user.User`, restricted to the fields `userServer.assertNotRoot`
reads. -/
structure OsUser where
  uid : String
  username : String
deriving Repr, DecidableEq

/-- Mutable fields of `userServer` guarded by its private lock: the child
process handle (modelled as a flag recording whether `cmd` has been stored),
the last-reported listen address, and the closed flag. -/
structure UserServerState where
  cmdSet : Bool
  addr : String
  closed : Bool
deriving Repr, DecidableEq

/-- Result of the single `bufio.Scanner.Scan()` call that reads the child's
address line.  Go semantics: a successful scan yields the line with
`Err() = nil`; end of input (the child exited before writing a line) makes
`Scan` return `false` with `Err() = nil` and `Text() = ""`; a read failure
makes `Err()` non-nil. -/
inductive ScanOutcome where
  | line (text : String)
  | eof
  | failure (msg : String)
deriving Repr, DecidableEq

/-- The operating-system environment one call to `userServer.run` executes
in: the outcome of the `canSudo` probe, of `user.Current()`, of creating
the two pipes, of `cmd.Start()`, of scanning the first stdout line, and of
`cmd.Wait()`. -/
structure RunEnv where
  canSudo : Bool
  currentUser : Except String OsUser
  stdoutPipeOk : Bool
  stderrPipeOk : Bool
  startOk : Bool
  stdoutScan : ScanOutcome
  waitErr : Option String
deriving Repr

/-- What one call to `userServer.run` did: the state fields it left behind,
whether a child process was started (`cmd.Start()` succeeded), and the
error (if any) it returned. -/
structure RunOutcome where
  state : UserServerState
  childStarted : Bool
  result : Except String Unit
deriving Repr

/-- The `userServer.run` child-process argument list:
`{"serve-tailfs"}` followed by one `(Name, Path)` pair per share in
`s.shares`. -/
def serveArgs (shares : List Share) : List String :=
  "serve-tailfs" :: shares.foldl (fun args sh => args ++ [sh.name, sh.path]) []

/-- Method `userServer.assertNotRoot`: errors if `user.Current()` fails or reports
UID `"0"`. -/
def assertNotRoot (currentUser : Except String OsUser) : Except String Unit :=
  match currentUser with
  | .error e => .error ("assertNotRoot failed to find current user: " ++ e)
  | .ok u =>
      if u.uid = "0" then .error (u.username ++ " is root") else .ok ()

/-- Method `userServer.run` as a function of its OS environment and the server's
state.  Mirrors the Go control flow: choose the launch strategy by the
`canSudo` probe (refusing outright, before any process is created, when the
fallback path finds the current user is root), create the pipes, start the
child, record the command handle, scan one line from the child's stdout
(returning early only when the scanner reports an error), store the trimmed
text as `addr`, and finish with `cmd.Wait()`'s result. -/
def userServerRun (env : RunEnv) (st : UserServerState) : RunOutcome :=
  match (if env.canSudo then Except.ok () else assertNotRoot env.currentUser) with
  | .error e => { state := st, childStarted := false, result := .error e }
  | .ok _ =>
  if !env.stdoutPipeOk then
    { state := st, childStarted := false, result := .error "stdout pipe" }
  else if !env.stderrPipeOk then
    { state := st, childStarted := false, result := .error "stderr pipe" }
  else if !env.startOk then
    { state := st, childStarted := false, result := .error "start" }
  else
    let st1 : UserServerState := { st with cmdSet := true }
    match env.stdoutScan with
    | .failure msg =>
        { state := st1, childStarted := true,
          result := .error ("read addr: " ++ msg) }
    | .line text =>
        { state := { st1 with addr := text.trim }, childStarted := true,
          result := match env.waitErr with
                    | some e => .error e
                    | Option.none => .ok () }
    | .eof =>
        -- Scan returned false at end of input with a nil scanner error, so
        -- Text() is "" and strings.TrimSpace("") = "" is stored as addr.
        { state := { st1 with addr := "" }, childStarted := true,
          result := match env.waitErr with
                    | some e => .error e
                    | Option.none => .ok () }

/-! ## The retry loop's exponential backoff (`userServer.runLoop`) -/

/-- Constant `maxSleepTime` in milliseconds: 30 seconds. -/
def maxSleepMs : Nat := 30000

/-- One backoff computation of `userServer.runLoop`, in milliseconds: given
the consecutive-failure counter and the time since the previous failure,
produce the updated counter and the sleep duration
`min(2^counter ms, 30 s)`.  A gap shorter than the ceiling increments the
counter; otherwise it resets to 1. -/
def backoffStep (consecutiveFailures gapMs : Nat) : Nat × Nat :=
  let cf := if gapMs < maxSleepMs then consecutiveFailures + 1 else 1
  (cf, min (2 ^ cf) maxSleepMs)

/-- The sleep durations `runLoop` computes across successive failures, given
the starting counter value and the list of inter-failure gaps (ms). -/
def backoffDelays (consecutiveFailures : Nat) : List Nat → List Nat
  | [] => []
  | gap :: gaps =>
      let (cf, sleepMs) := backoffStep consecutiveFailures gap
      sleepMs :: backoffDelays cf gaps

/-! ## Grouping shares by owner (`SetShares`'s userServer construction) -/

/-- One step of the `SetShares` loop over the incoming shares: look up the
share's `As` owner among the userServers built so far; create a fresh one
if absent, then append the share to that server's share list. -/
def insertShare (userServers : List (String × List Share)) (sh : Share) :
    List (String × List Share) :=
  match userServers with
  | [] => [(sh.shareAs, [sh])]
  | (owner, lst) :: rest =>
      if owner = sh.shareAs then (owner, lst ++ [sh]) :: rest
      else (owner, lst) :: insertShare rest sh

/-- The userServer map `SetShares` builds: one entry per distinct owner,
seeded with that owner's shares in input order. -/
def groupShares (shares : List Share) : List (String × List Share) :=
  shares.foldl insertShare []

/-! ## The configuration swap (`SetShares` and `Close`) -/

/-- Observable steps of a configuration swap, in the order the code
performs them.  `runLoopsStarted` is the launching of the new generation's
supervisor loops; `newGenerationInstalled` is the map swap under the
exclusive lock; `userServersStopped`/`childrenClosed` are the teardown of
the previous generation. -/
inductive SwapEvent where
  | runLoopsStarted
  | lockAcquired
  | newGenerationInstalled
  | lockReleased
  | userServersStopped
  | childrenClosed
deriving Repr, DecidableEq

/-- Fields of `FileSystemForRemote` guarded by `mu`: the global file-server
address, the share map (keyed by name, as a list), the names in the
`children` map, and the userServer map (owner → shares it serves). -/
structure FsState where
  fileServerAddr : String
  shares : List Share
  children : List String
  userServers : List (String × List Share)
deriving Repr, DecidableEq

/-- The environment `SetShares` runs in: the `tailfs.AllowShareAs()`
capability flag and the result of `os.Executable()`. -/
structure SetSharesEnv where
  allowShareAs : Bool
  executable : Except String String
deriving Repr

/-- The tail of `SetShares` shared by both capability branches: build the
`children` map (one entry per share name), install the new share map,
children and userServers under the exclusive lock, then stop the old
userServers and close the old children. -/
def installGeneration (st : FsState) (shares : List Share)
    (userServers : List (String × List Share)) (evs : List SwapEvent) :
    FsState × List SwapEvent :=
  let children := shares.map (fun sh => sh.name)
  ({ st with shares := shares, children := children, userServers := userServers },
   evs ++ [.lockAcquired, .newGenerationInstalled, .lockReleased,
           .userServersStopped, .childrenClosed])

/-- Method `FileSystemForRemote.SetShares`: with privilege separation enabled,
resolve the current executable (returning with nothing installed and
nothing torn down if that fails), group the shares by owner into fresh
userServers and start their run loops; either way build the new children
and swap the generation, tearing the old one down afterwards. -/
def setShares (env : SetSharesEnv) (st : FsState) (shares : List Share) :
    FsState × List SwapEvent :=
  if env.allowShareAs then
    match env.executable with
    | .error _ => (st, [])
    | .ok _ => installGeneration st shares (groupShares shares) [.runLoopsStarted]
  else
    installGeneration st shares [] []

/-- Method `FileSystemForRemote.Close`: install fresh empty userServer and
children maps under the exclusive lock (the share map is left as is), then
stop the previous userServers and close the previous children. -/
def closeFileSystem (st : FsState) : FsState × List SwapEvent :=
  ({ st with userServers := [], children := [] },
   [.lockAcquired, .newGenerationInstalled, .lockReleased,
    .userServersStopped, .childrenClosed])

/-! ## The per-share dialer (`buildChild`'s `Transport.Dial`) -/

/-- Value of one hexadecimal digit, as `encoding/hex` accepts them. -/
def hexDigitVal (c : Char) : Option Nat :=
  if '0' ≤ c ∧ c ≤ '9' then some (c.toNat - '0'.toNat)
  else if 'a' ≤ c ∧ c ≤ 'f' then some (c.toNat - 'a'.toNat + 10)
  else if 'A' ≤ c ∧ c ≤ 'F' then some (c.toNat - 'A'.toNat + 10)
  else Option.none

/-- Go's `hex.DecodeString` on a character list: consume digit pairs, failing on
an odd length or a non-hex digit. -/
def hexDecodeChars : List Char → Option (List Nat)
  | [] => some []
  | [_] => Option.none
  | hi :: lo :: rest =>
      match hexDigitVal hi, hexDigitVal lo, hexDecodeChars rest with
      | some h, some l, some bs => some ((16 * h + l) :: bs)
      | _, _, _ => Option.none

/-- Composition `string(hex.DecodeString(s))`: the decoded bytes read back as a string,
one character per byte (exact for the ASCII share names the system uses). -/
def hexDecodeString (s : String) : Option String :=
  (hexDecodeChars s.data).map fun bs => String.mk (bs.map Char.ofNat)

/-- Lowercase hex digits, as `hex.EncodeToString` produces them. -/
def hexDigitChar (n : Nat) : Char :=
  if n < 10 then Char.ofNat ('0'.toNat + n) else Char.ofNat ('a'.toNat + n - 10)

/-- Go's `hex.EncodeToString` on a string's bytes (one byte per character, exact
for ASCII): each byte becomes two lowercase hex digits.  Used by
`buildChild` to embed the share name in the synthetic host. -/
def hexEncodeString (s : String) : String :=
  String.mk (s.data.foldr
    (fun c acc => hexDigitChar (c.toNat / 16) :: hexDigitChar (c.toNat % 16) :: acc) [])

/-- Split a character list at its last colon, yielding the parts before and
after it. -/
def lastColonSplit : List Char → Option (List Char × List Char)
  | [] => Option.none
  | c :: rest =>
      match lastColonSplit rest with
      | some (h, p) => some (c :: h, p)
      | Option.none => if c = ':' then some ([], rest) else Option.none

/-- Go's `net.SplitHostPort`, modelled for the address forms this system emits:
the part before the last colon is the host (stripped of surrounding
brackets when present), the part after it the port; no colon at all, or an
unbracketed host containing a colon, is an error. -/
def splitHostPort (s : String) : Option (String × String) :=
  match lastColonSplit s.data with
  | Option.none => Option.none
  | some (hostCs, portCs) =>
      if hostCs.contains ':' then
        match hostCs with
        | '[' :: rest =>
            if rest.getLast? = some ']' then
              some (String.mk (rest.dropLast), String.mk portCs)
            else Option.none
        | _ => Option.none
      else some (String.mk hostCs, String.mk portCs)

/-- Errors the dial closure can return, one constructor per `fmt.Errorf`
site. -/
inductive DialError where
  | badShareAddr (shareAddr : String)
  | badShareName (hexHost : String)
  | unknownShare (name : String)
  | noAddress (name : String)
deriving Repr, DecidableEq

/-- The connection attempt the dial closure ends in: a TCP dial of a
`host:port` address, or a safesocket connect of a local socket path. -/
inductive DialAction where
  | tcpDial (addr : String)
  | safesocketConnect (addr : String)
deriving Repr, DecidableEq

/-- Lookup in the share map `s.shares` (keyed by `Share.Name`). -/
def findShare (shares : List Share) (name : String) : Option Share :=
  shares.find? (fun sh => sh.name = name)

/-- The `Transport.Dial` closure `buildChild` installs, as a function of
the locked snapshot (`shares`, per-owner reported addresses,
`fileServerAddr`), the global `tailfs.AllowShareAs()` flag, the success
predicate of `netip.ParseAddrPort` (an external parser consulted only for
classification), and the synthetic share address being dialed.  Mirrors the
Go flow: split host/port, hex-decode the host into the share name, look the
share up, resolve the backend address (the global file-server address when
privilege separation is off, otherwise the owner's userServer-reported
address, empty when that server is absent), refuse an empty address, then
classify: parseable `host:port` → TCP dial, otherwise safesocket. -/
def childDial (allowShareAs : Bool) (parseAddrPortOk : String → Bool)
    (shares : List Share) (userServerAddrs : List (String × String))
    (fileServerAddr : String) (shareAddr : String) :
    Except DialError DialAction :=
  match splitHostPort shareAddr with
  | Option.none => .error (.badShareAddr shareAddr)
  | some (shareNameHex, _) =>
      match hexDecodeString shareNameHex with
      | Option.none => .error (.badShareName shareNameHex)
      | some shareName =>
          match findShare shares shareName with
          | Option.none => .error (.unknownShare shareName)
          | some share =>
              let addr :=
                if !allowShareAs then fileServerAddr
                else ((userServerAddrs.lookup share.shareAs).getD "")
              if addr = "" then .error (.noAddress shareName)
              else if parseAddrPortOk addr then .ok (.tcpDial addr)
              else .ok (.safesocketConnect addr)

/-! ## Theorems -/

/-- C1.  If the `canSudo` probe fails and the current OS user has UID
`"0"`, `userServer.run` returns an error before starting any child process
(no `cmd.Start` happens), and the server's state — in particular its
published `addr` — is left exactly as it was: startup fails closed while
running with super-user privilege. -/
theorem run_refuses_root (env : RunEnv) (st : UserServerState) (u : OsUser)
    (hsudo : env.canSudo = false) (huser : env.currentUser = Except.ok u)
    (huid : u.uid = "0") :
    (userServerRun env st).childStarted = false ∧
    (userServerRun env st).state = st ∧
    (userServerRun env st).result = Except.error (u.username ++ " is root") := by
  simp [userServerRun, hsudo, huser, assertNotRoot, huid]

/-- Witness for C1: a concrete root environment refused by `run`. -/
theorem run_refuses_root_witness :
    (userServerRun
        ⟨false, Except.ok ⟨"0", "root"⟩, true, true, true, .line "127.0.0.1:1", Option.none⟩
        ⟨false, "", false⟩).childStarted = false ∧
    (userServerRun
        ⟨false, Except.ok ⟨"0", "root"⟩, true, true, true, .line "127.0.0.1:1", Option.none⟩
        ⟨false, "", false⟩).state = ⟨false, "", false⟩ ∧
    (userServerRun
        ⟨false, Except.ok ⟨"0", "root"⟩, true, true, true, .line "127.0.0.1:1", Option.none⟩
        ⟨false, "", false⟩).result = Except.error ("root" ++ " is root") :=
  run_refuses_root _ _ ⟨"0", "root"⟩ rfl rfl rfl

/-- C2.  When the policy returns `None` for the share named by the
request's first path segment, `ServeHTTPWithPerms` answers the identical
"not found" response whatever the method (mutating methods through the
early permission check, read methods because the share is filtered out of
the composed handler's children), and whatever the current children map —
so the response never reveals whether a share of that name exists. -/
theorem serve_none_not_found (permissions : String → Permission)
    (method path : String) (children : List String)
    (hperm : permissions (firstSegment path) = Permission.none)
    (hseg : firstSegment path ≠ "") :
    serveHTTPWithPerms permissions method path children = DavResponse.notFound := by
  by_cases hw : method ∈ writeMethods
  · simp [serveHTTPWithPerms, hw, hperm]
  · simp [serveHTTPWithPerms, compositedavHandle, hw, hseg, List.mem_filter, hperm]

/-- Witness for C2: method `GET` and method `PUT` on `/A/f.txt` with a
policy denying `A` both produce `notFound`, with share `A` present in one
children map and absent from the other. -/
theorem serve_none_not_found_witness :
    serveHTTPWithPerms (fun _ => Permission.none) "GET" "/A/f.txt" ["A"] =
      DavResponse.notFound ∧
    serveHTTPWithPerms (fun _ => Permission.none) "PUT" "/A/f.txt" [] =
      DavResponse.notFound :=
  ⟨serve_none_not_found _ _ _ _ rfl (by decide),
   serve_none_not_found _ _ _ _ rfl (by decide)⟩

/-- C3.  When the policy returns `ReadOnly` for the share named by the
request's first path segment, every mutating-method request is answered
"forbidden" by the early check — before the composed handler or any dial
is reached — while a read-method request to the same existing share
proceeds to dispatch and is forwarded to that share's backend. -/
theorem serve_readonly_forbids_writes (permissions : String → Permission)
    (method path : String) (children : List String)
    (hperm : permissions (firstSegment path) = Permission.readOnly)
    (hseg : firstSegment path ≠ "") :
    (method ∈ writeMethods →
      serveHTTPWithPerms permissions method path children = DavResponse.forbidden) ∧
    (method ∉ writeMethods → firstSegment path ∈ children →
      serveHTTPWithPerms permissions method path children =
        DavResponse.forwarded (firstSegment path)) := by
  constructor
  · intro hw
    simp [serveHTTPWithPerms, hw, hperm]
  · intro hw hmem
    simp [serveHTTPWithPerms, compositedavHandle, hw, hseg, List.mem_filter, hmem, hperm]

/-- Witness for C3: `PUT /A/file.txt` against a read-only `A` is
forbidden; `GET /A/file.txt` is forwarded to `A`. -/
theorem serve_readonly_forbids_writes_witness :
    serveHTTPWithPerms (fun _ => Permission.readOnly) "PUT" "/A/file.txt" ["A"] =
      DavResponse.forbidden ∧
    serveHTTPWithPerms (fun _ => Permission.readOnly) "GET" "/A/file.txt" ["A"] =
      DavResponse.forwarded "A" :=
  ⟨(serve_readonly_forbids_writes _ _ _ _ rfl (by decide)).1 (by decide),
   (serve_readonly_forbids_writes _ _ _ _ rfl (by decide)).2 (by decide) (by decide)⟩

/-- C4, counterexample.  A child that starts and then exits before
producing its address line (`Scan` returns false at end of input with a
nil scanner error) does not leave the previously published address
untouched: `run` stores `Text() = ""` trimmed, overwriting the previous
address `"100.64.1.2:8080"` with `""`. -/
theorem run_eof_overwrites_addr :
    (userServerRun
        ⟨true, Except.ok ⟨"1000", "user"⟩, true, true, true, .eof, some "exit status 1"⟩
        ⟨false, "100.64.1.2:8080", false⟩).childStarted = true ∧
    (userServerRun
        ⟨true, Except.ok ⟨"1000", "user"⟩, true, true, true, .eof, some "exit status 1"⟩
        ⟨false, "100.64.1.2:8080", false⟩).state.addr ≠ "100.64.1.2:8080" := by
  exact ⟨rfl, by decide⟩

/-- C4, amended.  After a successful launch (pipes and `cmd.Start`
succeed), the published `addr` follows the single stdout scan: a scanner
error leaves it untouched; a scanned line is stored trimmed; end of input
before any line (child exited silently, scanner error nil) stores the
empty string — clearing, not preserving, any previously published address.
Launch failures before the scan leave the state untouched. -/
theorem run_addr_follows_scan (env : RunEnv) (st : UserServerState)
    (hsudo : env.canSudo = true) :
    (userServerRun env st).state.addr =
      (if env.stdoutPipeOk && env.stderrPipeOk && env.startOk then
        match env.stdoutScan with
        | .failure _ => st.addr
        | .line text => text.trim
        | .eof => ""
      else st.addr) := by
  cases h1 : env.stdoutPipeOk <;> cases h2 : env.stderrPipeOk <;>
    cases h3 : env.startOk <;> cases hs : env.stdoutScan <;>
      simp [userServerRun, hsudo, h1, h2, h3, hs]

/-- Witness for the amended C4: a child that prints
`" 127.0.0.1:8080 "` has the trimmed line published as its address. -/
theorem run_addr_follows_scan_witness :
    (userServerRun
        ⟨true, Except.ok ⟨"1000", "user"⟩, true, true, true,
          .line " 127.0.0.1:8080 ", Option.none⟩
        ⟨false, "", false⟩).state.addr =
      (if true && true && true then
        match ScanOutcome.line " 127.0.0.1:8080 " with
        | .failure _ => ""
        | .line text => text.trim
        | .eof => ""
      else "") :=
  run_addr_follows_scan _ _ rfl

/-- When every inter-failure gap is below the ceiling, the consecutive
failure counter counts up from its start and each sleep is
`min (2^counter, ceiling)` milliseconds. -/
theorem backoffDelays_eq (gaps : List Nat) :
    ∀ cf : Nat, (∀ g ∈ gaps, g < maxSleepMs) →
      backoffDelays cf gaps =
        (List.range gaps.length).map fun i => min (2 ^ (cf + 1 + i)) maxSleepMs := by
  induction gaps with
  | nil => intro cf _; rfl
  | cons g gs ih =>
      intro cf h
      have hg : g < maxSleepMs := h g (by simp)
      have hrest : ∀ x ∈ gs, x < maxSleepMs := fun x hx => h x (by simp [hx])
      simp only [backoffDelays, backoffStep, if_pos hg, List.length_cons,
        List.range_succ_eq_map, List.map_cons, List.map_map]
      congr 1
      rw [ih (cf + 1) hrest]
      refine List.map_congr_left fun i _ => ?_
      simp only [Function.comp]
      congr 2
      omega

/-- C5.  Starting from `runLoop`'s initial state (counter 0, last-failure
time far in the past), a sequence of immediate failures whose gaps all stay
below the 30 s ceiling produces the delays
`min (2·2^k, 30 s)` for `k = 0, 1, 2, …` — the initial delay doubling per
consecutive failure, capped at the ceiling — while any failure arriving
after a gap exceeding the ceiling resets the counter to 1 and the delay to
the initial 2 ms value. -/
theorem runLoop_backoff_doubles (gaps : List Nat)
    (hgaps : ∀ g ∈ gaps, g < maxSleepMs) (g0 : Nat) (hg0 : maxSleepMs ≤ g0)
    (cf gBig : Nat) (hBig : maxSleepMs < gBig) :
    backoffDelays 0 (g0 :: gaps) =
      (List.range (gaps.length + 1)).map (fun k => min (2 * 2 ^ k) maxSleepMs) ∧
    backoffStep cf gBig = (1, 2) := by
  constructor
  · have h0 : ¬ g0 < maxSleepMs := not_lt.mpr hg0
    simp only [backoffDelays, backoffStep, if_neg h0,
      List.range_succ_eq_map, List.map_cons, List.map_map]
    congr 1
    rw [backoffDelays_eq gaps 1 hgaps]
    refine List.map_congr_left fun i _ => ?_
    simp only [Function.comp, maxSleepMs]
    rw [← pow_succ']
    congr 2
    omega
  · have hn : ¬ gBig < 30000 := by
      have := not_lt.mpr (le_of_lt hBig)
      simpa [maxSleepMs] using this
    simp [backoffStep, maxSleepMs, hn]

/-- Witness for C5: immediate failures with gaps 5 ms and 7 ms yield the
doubling delays, and a 30001 ms gap resets the counter from 9 to 1. -/
theorem runLoop_backoff_doubles_witness :
    backoffDelays 0 (30000 :: [5, 7]) =
      (List.range ([5, 7].length + 1)).map (fun k => min (2 * 2 ^ k) maxSleepMs) ∧
    backoffStep 9 30001 = (1, 2) :=
  runLoop_backoff_doubles [5, 7] (by decide) 30000 (by decide) 9 30001 (by decide)

/-- Holds of a swap trace when the new generation is installed inside a
single lock-acquire/lock-release section and both teardown steps (stopping
the old userServers, closing the old children) occur strictly after the
installation — and indeed after the lock is released. -/
def installBeforeTeardown (evs : List SwapEvent) : Prop :=
  SwapEvent.newGenerationInstalled ∈ evs ∧
  SwapEvent.userServersStopped ∈ evs ∧
  SwapEvent.childrenClosed ∈ evs ∧
  evs.indexOf SwapEvent.lockAcquired < evs.indexOf SwapEvent.newGenerationInstalled ∧
  evs.indexOf SwapEvent.newGenerationInstalled < evs.indexOf SwapEvent.lockReleased ∧
  evs.indexOf SwapEvent.lockReleased ≤ evs.indexOf SwapEvent.userServersStopped ∧
  evs.indexOf SwapEvent.userServersStopped < evs.indexOf SwapEvent.childrenClosed

/-- C6.  Whenever `SetShares` swaps a generation (that is, whenever it does
not return early on an executable-lookup failure), and always in `Close`,
the new maps are installed inside the single exclusive lock section and the
previous generation's userServers are stopped and its children's idle
connections closed strictly afterwards — readers never see the old
generation torn down without a replacement in place. -/
theorem generation_installed_before_teardown (env : SetSharesEnv)
    (st : FsState) (shares : List Share)
    (hok : env.allowShareAs = false ∨ ∃ exe, env.executable = Except.ok exe) :
    installBeforeTeardown (setShares env st shares).2 ∧
    installBeforeTeardown (closeFileSystem st).2 := by
  refine ⟨?_, ?_⟩
  · rcases hok with h | ⟨exe, h⟩
    · simp only [setShares, h, Bool.false_eq_true, if_false, installGeneration,
        installBeforeTeardown]
      decide
    · cases hb : env.allowShareAs
      · simp only [setShares, hb, Bool.false_eq_true, if_false, installGeneration,
          installBeforeTeardown]
        decide
      · simp only [setShares, hb, if_true, h, installGeneration, installBeforeTeardown]
        decide
  · simp only [closeFileSystem, installBeforeTeardown]
    decide

/-- Witness for C6: a concrete swap of one share over one previous
generation, with privilege separation enabled. -/
theorem generation_installed_before_teardown_witness :
    installBeforeTeardown
      (setShares ⟨true, Except.ok "/usr/bin/tailscaled"⟩
        ⟨"fsaddr", [⟨"X", "/x", "u"⟩], ["X"], [("u", [⟨"X", "/x", "u"⟩])]⟩
        [⟨"A", "/a", "alice"⟩]).2 ∧
    installBeforeTeardown
      (closeFileSystem
        ⟨"fsaddr", [⟨"X", "/x", "u"⟩], ["X"], [("u", [⟨"X", "/x", "u"⟩])]⟩).2 :=
  generation_installed_before_teardown _ _ _ (Or.inr ⟨"/usr/bin/tailscaled", rfl⟩)

/-- C10.  With privilege separation enabled, a failure of
`os.Executable()` makes `SetShares` return before anything else: the
previously installed state (share map, children, userServers) stays
current and no swap event — in particular no teardown of the previous
generation — takes place. -/
theorem setShares_executable_error (env : SetSharesEnv) (st : FsState)
    (shares : List Share) (e : String) (hallow : env.allowShareAs = true)
    (hexe : env.executable = Except.error e) :
    setShares env st shares = (st, ([] : List SwapEvent)) := by
  simp [setShares, hallow, hexe]

/-- Witness for C10: a concrete failed executable lookup leaves a concrete
installed state untouched. -/
theorem setShares_executable_error_witness :
    setShares ⟨true, Except.error "no exe"⟩
        ⟨"fsaddr", [⟨"X", "/x", "u"⟩], ["X"], [("u", [⟨"X", "/x", "u"⟩])]⟩
        [⟨"A", "/a", "alice"⟩] =
      (⟨"fsaddr", [⟨"X", "/x", "u"⟩], ["X"], [("u", [⟨"X", "/x", "u"⟩])]⟩,
       ([] : List SwapEvent)) :=
  setShares_executable_error _ _ _ "no exe" rfl rfl

/-- C8.  Failure modes of the child transport's dial: a host token that
does not hex-decode is a hard error; a decoded name absent from the current
share map fails with the "unknown share" error; a known share whose owner
has no userServer or whose userServer has not (yet) published a non-empty
address fails with the distinct "unable to determine address" error.  In
every case the result is an error, never a connection — no dial partially
succeeds. -/
theorem childDial_failure_modes (allow : Bool) (parse : String → Bool)
    (shares : List Share) (usAddrs : List (String × String))
    (fsAddr shareAddr hexTok port : String)
    (hsplit : splitHostPort shareAddr = some (hexTok, port)) :
    (hexDecodeString hexTok = Option.none →
      childDial allow parse shares usAddrs fsAddr shareAddr =
        Except.error (DialError.badShareName hexTok)) ∧
    (∀ shareName, hexDecodeString hexTok = some shareName →
      findShare shares shareName = Option.none →
      childDial allow parse shares usAddrs fsAddr shareAddr =
        Except.error (DialError.unknownShare shareName)) ∧
    (∀ shareName share, hexDecodeString hexTok = some shareName →
      findShare shares shareName = some share → allow = true →
      (List.lookup share.shareAs usAddrs).getD "" = "" →
      childDial allow parse shares usAddrs fsAddr shareAddr =
        Except.error (DialError.noAddress shareName)) ∧
    (∀ n : String, DialError.unknownShare n ≠ DialError.noAddress n) := by
  refine ⟨?_, ?_, ?_, fun n h => by cases h⟩
  · intro hdec
    simp [childDial, hsplit, hdec]
  · intro shareName hdec hfind
    simp [childDial, hsplit, hdec, hfind]
  · intro shareName share hdec hfind hallow haddr
    simp [childDial, hsplit, hdec, hfind, hallow, haddr]

/-- Witness for C8: dialing the synthetic address `41:80` (hex for share
`A`) against an empty share map fails with the "unknown share" error. -/
theorem childDial_failure_modes_witness :
    childDial true (fun _ => true) [] [] "" "41:80" =
      Except.error (DialError.unknownShare "A") :=
  (childDial_failure_modes true (fun _ => true) [] [] "" "41:80" "41" "80"
      (by decide)).2.1 "A" (by decide) rfl

/-- C9.  Classification of the resolved backend address at dial time: with
privilege separation on, the owner's userServer-reported address is used
and the dial is a TCP stream dial exactly when `netip.ParseAddrPort`
accepts the address, and a safesocket connect otherwise — one mechanism is
chosen and there is no fallback to the other.  With privilege separation
off, the dial targets the global file-server address and the userServer map
is never consulted: any two userServer maps give the identical result. -/
theorem childDial_classification (parse : String → Bool) (shares : List Share)
    (usAddrs : List (String × String))
    (fsAddr shareAddr hexTok port shareName : String) (share : Share)
    (hsplit : splitHostPort shareAddr = some (hexTok, port))
    (hdec : hexDecodeString hexTok = some shareName)
    (hfind : findShare shares shareName = some share) :
    (∀ addr, List.lookup share.shareAs usAddrs = some addr → addr ≠ "" →
      childDial true parse shares usAddrs fsAddr shareAddr =
        Except.ok (if parse addr then DialAction.tcpDial addr
                   else DialAction.safesocketConnect addr)) ∧
    (fsAddr ≠ "" →
      childDial false parse shares usAddrs fsAddr shareAddr =
        Except.ok (if parse fsAddr then DialAction.tcpDial fsAddr
                   else DialAction.safesocketConnect fsAddr)) ∧
    (∀ usAddrs2 : List (String × String),
      childDial false parse shares usAddrs2 fsAddr shareAddr =
        childDial false parse shares usAddrs fsAddr shareAddr) := by
  refine ⟨?_, ?_, ?_⟩
  · intro addr hlk haddr
    simp only [childDial, hsplit, hdec, hfind, hlk, Bool.not_true,
      Bool.false_eq_true, if_false, Option.getD_some]
    rw [if_neg haddr]
    split <;> rfl
  · intro hfs
    simp only [childDial, hsplit, hdec, hfind, Bool.not_false, if_true]
    rw [if_neg hfs]
    split <;> rfl
  · intro usAddrs2
    simp only [childDial, hsplit, hdec, hfind, Bool.not_false, if_true]

/-- Witness for C9: with privilege separation on, alice's reported
`127.0.0.1:9999` is TCP-dialed under an all-accepting parser; with it off,
the global `/var/sock` is safesocket-connected under an all-rejecting
parser, whatever the userServer map. -/
theorem childDial_classification_witness :
    childDial true (fun _ => true) [⟨"A", "/a", "alice"⟩]
        [("alice", "127.0.0.1:9999")] "" "41:80" =
      Except.ok (DialAction.tcpDial "127.0.0.1:9999") ∧
    childDial false (fun _ => false) [⟨"A", "/a", "alice"⟩]
        [("alice", "127.0.0.1:9999")] "/var/sock" "41:80" =
      Except.ok (DialAction.safesocketConnect "/var/sock") :=
  ⟨(childDial_classification (fun _ => true) [⟨"A", "/a", "alice"⟩]
      [("alice", "127.0.0.1:9999")] "" "41:80" "41" "80" "A" ⟨"A", "/a", "alice"⟩
      (by decide) rfl rfl).1 "127.0.0.1:9999" rfl (by decide),
   ((childDial_classification (fun _ => false) [⟨"A", "/a", "alice"⟩]
      [("alice", "127.0.0.1:9999")] "/var/sock" "41:80" "41" "80" "A" ⟨"A", "/a", "alice"⟩
      (by decide) rfl rfl).2.1 (by decide))⟩

/-- Evaluation of `List.lookup` at the key of the head entry. -/
theorem lookup_cons_self {β : Type} (k : String) (v : β)
    (rest : List (String × β)) :
    List.lookup k ((k, v) :: rest) = some v := by
  simp [List.lookup]

/-- Evaluation of `List.lookup` skips a head entry with a different key. -/
theorem lookup_cons_of_ne {β : Type} {o k : String} (h : o ≠ k) (v : β)
    (rest : List (String × β)) :
    List.lookup o ((k, v) :: rest) = List.lookup o rest := by
  have hb : (o == k) = false := beq_eq_false_iff_ne.mpr h
  simp [List.lookup, hb]

/-- Inserting a share touches only its owner's entry: that owner's lookup
gains the share at the end of its list (a fresh singleton entry appearing
when the owner was absent); every other lookup is unchanged. -/
theorem insertShare_lookup (m : List (String × List Share)) (sh : Share)
    (o : String) :
    List.lookup o (insertShare m sh) =
      if o = sh.shareAs then some (((List.lookup o m).getD []) ++ [sh])
      else List.lookup o m := by
  induction m with
  | nil =>
      by_cases h : o = sh.shareAs
      · subst h; simp [insertShare, lookup_cons_self]
      · have hb : (o == sh.shareAs) = false := beq_eq_false_iff_ne.mpr h
        simp [insertShare, h, List.lookup, hb]
  | cons kv rest ih =>
      obtain ⟨k, v⟩ := kv
      by_cases hk : k = sh.shareAs
      · by_cases ho : o = k
        · subst ho
          simp [insertShare, hk, lookup_cons_self]
        · have hos : o ≠ sh.shareAs := fun he => ho (he.trans hk.symm)
          simp [insertShare, hk, lookup_cons_of_ne hos, hos]
      · by_cases ho : o = k
        · subst ho
          have hos : o ≠ sh.shareAs := hk
          simp [insertShare, hk, lookup_cons_self, hos]
        · simp [insertShare, hk, lookup_cons_of_ne ho, ih]

/-- The keys after an insert: unchanged when the owner already has an
entry, the owner appended at the end otherwise. -/
theorem insertShare_keys (m : List (String × List Share)) (sh : Share) :
    (insertShare m sh).map Prod.fst =
      if sh.shareAs ∈ m.map Prod.fst then m.map Prod.fst
      else m.map Prod.fst ++ [sh.shareAs] := by
  induction m with
  | nil => simp [insertShare]
  | cons kv rest ih =>
      obtain ⟨k, v⟩ := kv
      by_cases hk : k = sh.shareAs
      · simp [insertShare, hk]
      · have hne : sh.shareAs ≠ k := fun he => hk he.symm
        by_cases hm : sh.shareAs ∈ rest.map Prod.fst
        · simp [insertShare, hk, ih, hm, hne]
        · simp [insertShare, hk, ih, hm, hne]

/-- Folding the `SetShares` loop over any accumulator with distinct owner
keys keeps the keys distinct. -/
theorem foldl_insertShare_keys_nodup (shares : List Share) :
    ∀ m : List (String × List Share), (m.map Prod.fst).Nodup →
      ((shares.foldl insertShare m).map Prod.fst).Nodup := by
  induction shares with
  | nil => intro m h; simpa using h
  | cons sh tl ih =>
      intro m h
      have h' : ((insertShare m sh).map Prod.fst).Nodup := by
        rw [insertShare_keys]
        split
        · exact h
        · next hnm => simp [List.nodup_append, h, hnm]
      simpa [List.foldl_cons] using ih (insertShare m sh) h'

/-- The userServer map built by `SetShares` has one entry per owner: its
keys are distinct. -/
theorem groupShares_keys_nodup (shares : List Share) :
    ((groupShares shares).map Prod.fst).Nodup :=
  foldl_insertShare_keys_nodup shares [] (by simp)

/-- Looking an owner up after the whole `SetShares` loop: that owner's
entry is its accumulator value extended by all of the owner's incoming
shares, present exactly when the owner had an entry or an incoming
share. -/
theorem foldl_insertShare_lookup (shares : List Share) :
    ∀ (m : List (String × List Share)) (o : String),
      List.lookup o (shares.foldl insertShare m) =
        match List.lookup o m, shares.filter (fun sh => sh.shareAs = o) with
        | some v, l => some (v ++ l)
        | Option.none, [] => Option.none
        | Option.none, l => some l := by
  induction shares with
  | nil =>
      intro m o
      cases h : List.lookup o m <;> simp [h]
  | cons sh tl ih =>
      intro m o
      rw [List.foldl_cons, ih (insertShare m sh) o, insertShare_lookup]
      by_cases hso : o = sh.shareAs
      · rw [if_pos hso]
        have hfc : (sh :: tl).filter (fun x => x.shareAs = o) =
            sh :: tl.filter (fun x => x.shareAs = o) := by
          simp [List.filter_cons, hso]
        rw [hfc]
        cases h : List.lookup o m <;> simp [h]
      · rw [if_neg hso]
        have hns : ¬ sh.shareAs = o := fun he => hso he.symm
        have hfc : (sh :: tl).filter (fun x => x.shareAs = o) =
            tl.filter (fun x => x.shareAs = o) := by
          simp [List.filter_cons, hns]
        rw [hfc]

/-- A successful lookup names an entry of the association list. -/
theorem lookup_mem {β : Type} (m : List (String × β)) (o : String) (v : β)
    (h : List.lookup o m = some v) : (o, v) ∈ m := by
  induction m with
  | nil => simp [List.lookup] at h
  | cons kv rest ih =>
      obtain ⟨k, w⟩ := kv
      by_cases hk : o = k
      · subst hk
        rw [lookup_cons_self] at h
        cases h
        exact List.mem_cons_self _ _
      · rw [lookup_cons_of_ne hk] at h
        exact List.mem_cons_of_mem _ (ih h)

/-- With distinct keys, every entry of the association list is what lookup
returns for its key. -/
theorem mem_lookup {β : Type} (m : List (String × β))
    (hnd : (m.map Prod.fst).Nodup) (o : String) (v : β) (h : (o, v) ∈ m) :
    List.lookup o m = some v := by
  induction m with
  | nil => cases h
  | cons kv rest ih =>
      obtain ⟨k, w⟩ := kv
      obtain ⟨hnotin, hnd'⟩ :=
        List.nodup_cons.mp (show (k :: rest.map Prod.fst).Nodup by simpa using hnd)
      rcases List.mem_cons.mp h with he | hr
      · cases he
        exact lookup_cons_self _ _ _
      · have hk : o ≠ k := by
          intro he
          subst he
          exact hnotin (List.mem_map.mpr ⟨(o, v), hr, rfl⟩)
        rw [lookup_cons_of_ne hk]
        exact ih hnd' hr

/-- The `run` argument loop flattens the share list into successive
`(name, path)` pairs after the subcommand. -/
theorem serveArgs_eq (shares : List Share) :
    serveArgs shares =
      "serve-tailfs" :: shares.flatMap (fun sh => [sh.name, sh.path]) := by
  suffices h : ∀ acc : List String,
      shares.foldl (fun args sh => args ++ [sh.name, sh.path]) acc =
        acc ++ shares.flatMap (fun sh => [sh.name, sh.path]) by
    simp [serveArgs, h []]
  induction shares with
  | nil => intro acc; simp
  | cons sh tl ih => intro acc; simp [ih]

/-- C7.  With privilege separation enabled, `SetShares` creates exactly one
userServer per distinct owner (the built map's keys are distinct), each
owner's userServer is seeded with every incoming share owned by that owner
(in input order), every share's owner receives a userServer, and `run`
invokes the child with the `serve-tailfs` subcommand followed by one
`(name, path)` pair per share in that list. -/
theorem setShares_one_server_per_owner (shares : List Share) (owner : String)
    (lst : List Share) (hmem : (owner, lst) ∈ groupShares shares) :
    ((groupShares shares).map Prod.fst).Nodup ∧
    lst = shares.filter (fun sh => sh.shareAs = owner) ∧
    serveArgs lst = "serve-tailfs" :: lst.flatMap (fun sh => [sh.name, sh.path]) ∧
    (∀ sh ∈ shares, ∃ l, (sh.shareAs, l) ∈ groupShares shares) := by
  have hnd := groupShares_keys_nodup shares
  refine ⟨hnd, ?_, serveArgs_eq lst, ?_⟩
  · have hl := mem_lookup _ hnd _ _ hmem
    rw [groupShares, foldl_insertShare_lookup shares [] owner] at hl
    rcases hf : shares.filter (fun sh => sh.shareAs = owner) with _ | ⟨a, l⟩
    · rw [hf] at hl
      simp [List.lookup] at hl
    · rw [hf] at hl
      rw [hf]
      simp [List.lookup] at hl
      exact hl.symm
  · intro sh hsh
    have hmm : sh ∈ shares.filter (fun x => x.shareAs = sh.shareAs) :=
      List.mem_filter.mpr ⟨hsh, by simp⟩
    have hlk : List.lookup sh.shareAs (groupShares shares) =
        some (shares.filter (fun x => x.shareAs = sh.shareAs)) := by
      rw [groupShares, foldl_insertShare_lookup shares [] sh.shareAs]
      rcases hf : shares.filter (fun x => x.shareAs = sh.shareAs) with _ | ⟨a, l⟩
      · rw [hf] at hmm; cases hmm
      · rw [hf]
        simp [List.lookup]
    exact ⟨_, lookup_mem _ _ _ hlk⟩

/-- Witness for C7: shares `A` and `B` owned by alice and `C` owned by bob
yield one userServer for alice holding both of alice's shares, whose child
is invoked with both `(A, /a)` and `(B, /b)` pairs. -/
theorem setShares_one_server_per_owner_witness :
    ((groupShares
        ([⟨"A", "/a", "alice"⟩, ⟨"B", "/b", "alice"⟩, ⟨"C", "/c", "bob"⟩] : List Share)).map
        Prod.fst).Nodup ∧
    ([⟨"A", "/a", "alice"⟩, ⟨"B", "/b", "alice"⟩] : List Share) =
      List.filter (fun sh => sh.shareAs = "alice")
        ([⟨"A", "/a", "alice"⟩, ⟨"B", "/b", "alice"⟩, ⟨"C", "/c", "bob"⟩] : List Share) ∧
    serveArgs ([⟨"A", "/a", "alice"⟩, ⟨"B", "/b", "alice"⟩] : List Share) =
      "serve-tailfs" ::
        ([⟨"A", "/a", "alice"⟩, ⟨"B", "/b", "alice"⟩] : List Share).flatMap
          (fun sh => [sh.name, sh.path]) ∧
    (∀ sh ∈ ([⟨"A", "/a", "alice"⟩, ⟨"B", "/b", "alice"⟩, ⟨"C", "/c", "bob"⟩] : List Share),
      ∃ l, (sh.shareAs, l) ∈
        groupShares
          ([⟨"A", "/a", "alice"⟩, ⟨"B", "/b", "alice"⟩, ⟨"C", "/c", "bob"⟩] : List Share)) :=
  setShares_one_server_per_owner
    ([⟨"A", "/a", "alice"⟩, ⟨"B", "/b", "alice"⟩, ⟨"C", "/c", "bob"⟩] : List Share) "alice"
    ([⟨"A", "/a", "alice"⟩, ⟨"B", "/b", "alice"⟩] : List Share) (by decide)

end Tailfsimpl
